import Mathlib

/-!
Verification development for the agent-evaluation harness.

The definitions below are a shallow embedding of `src/eval/metrics.py` and
`src/eval/harness.py`.  Python strings are modelled as `List Char`; the
regular expressions used by `analyze_agent_response` are embedded as
bespoke recursive scanners that mirror the backtracking behaviour of the
specific patterns in the source (leftmost match, greedy / lazy repetition
as analysed per pattern).  Floating point recall values are modelled as
exact rationals.
-/

set_option maxHeartbeats 1000000

namespace AgentEval

/-- Characters of a string literal, used to write Python string constants. -/
def chars (s : String) : List Char := s.data

/-- Python whitespace class for ASCII text: space, tab, newline, carriage
return, vertical tab and form feed. -/
def pyWs (c : Char) : Bool :=
  c == ' ' || c == '\t' || c == '\n' || c == '\r' || c == '\x0b' || c == '\x0c'

/-- ASCII lowercasing of a character, modelling Python str.lower on the ASCII
texts handled by the harness. -/
def pyLowerChar (c : Char) : Char :=
  if 'A' ≤ c ∧ c ≤ 'Z' then Char.ofNat (c.toNat + 32) else c

/-- Python str.lower on a whole string. -/
def pyLower (s : List Char) : List Char := s.map pyLowerChar

/-- Python str.strip: drop leading and trailing whitespace. -/
def pyStrip (s : List Char) : List Char :=
  ((s.dropWhile pyWs).reverse.dropWhile pyWs).reverse

/-- Boolean prefix test: the first list is a prefix of the second. -/
def isPrefixB : List Char → List Char → Bool
  | [], _ => true
  | _ :: _, [] => false
  | a :: as, b :: bs => a == b && isPrefixB as bs

/-- Python substring containment: needle occurs contiguously in hay.
Models the expression needle in hay on Python strings. -/
def containsSub (needle : List Char) : List Char → Bool
  | [] => isPrefixB needle []
  | c :: t => isPrefixB needle (c :: t) || containsSub needle t

/-- Length bound for dropWhile, used for termination of the scanners. -/
theorem dropWhile_length_le {α : Type} (p : α → Bool) (l : List α) :
    (l.dropWhile p).length ≤ l.length := by
  induction l with
  | nil => simp [List.dropWhile]
  | cons a t ih =>
    simp only [List.dropWhile]
    cases p a
    · simp
    · simpa using Nat.le_succ_of_le ih

/-- Python str.split with no argument: split on whitespace runs, dropping
empty pieces.  Structural recursion on a step counter that dominates the
input length, so that the function evaluates by kernel reduction. -/
def pySplitWsF : Nat → List Char → List (List Char)
  | 0, _ => []
  | _ + 1, [] => []
  | fuel + 1, c :: t =>
    if pyWs c then pySplitWsF fuel t
    else (c :: t.takeWhile (fun x => !pyWs x)) :: pySplitWsF fuel (t.dropWhile (fun x => !pyWs x))

/-- Python str.split with no argument. -/
def pySplitWs (s : List Char) : List (List Char) := pySplitWsF s.length s

/-- Python str.split on a newline character (keeps empty pieces). -/
def splitNl : List Char → List (List Char)
  | [] => [[]]
  | c :: t =>
    if c = '\n' then [] :: splitNl t
    else
      match splitNl t with
      | [] => [[c]]
      | h :: r => (c :: h) :: r

/-- Numeric value of a digit run, modelling Python int() on the captured
digits. -/
def digitsToNat (ds : List Char) : Nat :=
  ds.foldl (fun n c => n * 10 + (c.toNat - 48)) 0

/-- A ground-truth bug record: file, line and description, as produced by the
scanner and consumed by analyze_agent_response. -/
structure Bug where
  file : List Char
  line : Nat
  description : List Char
deriving DecidableEq, Repr

/-- The match_type tag attached to a matched claim. -/
inductive MatchType where
  | line_number
  | file_and_keyword
  | keyword
deriving DecidableEq, Repr

/-- One entry of found_bugs in analyze_agent_response.  The Python dict for an
unmatched claim has no match_type key, modelled by none. -/
structure FoundBug where
  known_bug : List Char
  agent_description : List Char
  bug_index : Int
  match_type : Option MatchType
deriving DecidableEq, Repr

/-! ### Claimed line number extraction

Embedding of re.search applied to the lowered paragraph with the pattern
(?:line|line:|\*\*line\*\*:?)\s*(\d+) : scan positions left to right, at each
position try the three alternatives in order, then greedy whitespace and a
nonempty digit run. -/

/-- After a matched label: skip the greedy whitespace run, then require at
least one digit and return the numeric value of the maximal digit run. -/
def wsDigits (s : List Char) : Option Nat :=
  let r := s.dropWhile pyWs
  let ds := r.takeWhile Char.isDigit
  if ds.isEmpty then none else some (digitsToNat ds)

/-- Attempt the line-label alternatives at one position. -/
def lineAltsHere (s : List Char) : Option Nat :=
  (if isPrefixB (chars "line") s then wsDigits (s.drop 4) else none) <|>
  (if isPrefixB (chars "line:") s then wsDigits (s.drop 5) else none) <|>
  (if isPrefixB (chars "**line**:") s then wsDigits (s.drop 9) else
   if isPrefixB (chars "**line**") s then wsDigits (s.drop 8) else none)

/-- Leftmost match of the line-number pattern over the lowered paragraph. -/
def extractLineNum : List Char → Option Nat
  | [] => none
  | c :: t =>
    match lineAltsHere (c :: t) with
    | some n => some n
    | none => extractLineNum t

/-! ### Claimed file path extraction

Embedding of re.search with (?:file|file:|\*\*file\*\*:?)\s*[\x27"]?([\w./]+\.py)[\x27"]?
on the lowered paragraph.  The captured group is the longest prefix of the
maximal word-dot-slash run that ends in .py and has at least one character
before that suffix. -/

/-- Character class [\w./]. -/
def wordDotSlash (c : Char) : Bool :=
  c.isAlphanum || c == '_' || c == '.' || c == '/'

/-- Longest prefix of the run (given reversed) that ends in .py and has
length at least four; returns it un-reversed. -/
def pyFromRev : List Char → Option (List Char)
  | [] => none
  | c :: t =>
    if isPrefixB (chars "yp.") (c :: t) && (c :: t).length ≥ 4 then some ((c :: t).reverse)
    else pyFromRev t

/-- After a matched file label: greedy whitespace, an optional quote, then the
captured path group from the maximal [\w./] run. -/
def fileTail (s : List Char) : Option (List Char) :=
  let r := s.dropWhile pyWs
  let r2 :=
    match r with
    | q :: t => if q == Char.ofNat 39 || q == Char.ofNat 34 then t else q :: t
    | [] => []
  let run := r2.takeWhile wordDotSlash
  pyFromRev run.reverse

/-- Attempt the file-label alternatives at one position. -/
def fileAltsHere (s : List Char) : Option (List Char) :=
  (if isPrefixB (chars "file") s then fileTail (s.drop 4) else none) <|>
  (if isPrefixB (chars "file:") s then fileTail (s.drop 5) else none) <|>
  (if isPrefixB (chars "**file**:") s then fileTail (s.drop 9) else
   if isPrefixB (chars "**file**") s then fileTail (s.drop 8) else none)

/-- Leftmost match of the file-path pattern over the lowered paragraph. -/
def extractFilePath : List Char → Option (List Char)
  | [] => none
  | c :: t =>
    match fileAltsHere (c :: t) with
    | some p => some p
    | none => extractFilePath t

/-! ### The per-bug matching loop -/

/-- The fixed stopword list used when extracting description keywords. -/
def stopWords : List (List Char) :=
  [chars "this", chars "that", chars "should", chars "would", chars "could", chars "will"]

/-- Keywords of a lowered bug description: whitespace tokens longer than three
characters that are not stopwords. -/
def keyWordsOf (bugDescLower : List Char) : List (List Char) :=
  (pySplitWs bugDescLower).filter (fun w => w.length > 3 && !(stopWords.contains w))

/-- Truthiness test of the extracted line number combined with equality
against a bug line: Python if line_num and line_num == bug_line. -/
def lineHit (lineNum : Option Nat) (bugLine : Nat) : Bool :=
  match lineNum with
  | some n => n != 0 && n == bugLine
  | none => false

/-- The for-loop over enumerate(known_bugs) in analyze_agent_response: per
bug, try line-number match, then file + keyword match, then keyword-only
match; stop at the first success, returning the zero-based bug index, the
match type and the lowered description. -/
def matchLoop (lineNum : Option Nat) (filePath : Option (List Char))
    (paraLower : List Char) : List Bug → Option (Nat × MatchType × List Char)
  | [] => none
  | bug :: rest =>
    let bugDesc := pyLower bug.description
    let bugFile := pyLower bug.file
    if lineHit lineNum bug.line then some (0, MatchType.line_number, bugDesc)
    else
      let kws := keyWordsOf bugDesc
      let fileOk :=
        match filePath with
        | some fp => containsSub bugFile fp
        | none => false
      if fileOk && !kws.isEmpty && kws.any (fun w => containsSub w paraLower) then
        some (0, MatchType.file_and_keyword, bugDesc)
      else
        let matching := kws.filter (fun w => containsSub w paraLower)
        if matching.length ≥ 2 || (matching.length == 1 && kws.length == 1) then
          some (0, MatchType.keyword, bugDesc)
        else
          (matchLoop lineNum filePath paraLower rest).map (fun r => (r.1 + 1, r.2))

/-- The bug-indicator word list of analyze_agent_response. -/
def bugIndicators : List (List Char) :=
  [chars "bug", chars "issue", chars "problem", chars "error", chars "incorrect",
   chars "wrong", chars "missing", chars "should", chars "improper", chars "invalid",
   chars "fail"]

/-- The lowered sentinel text tested against each line of a paragraph. -/
def sentinelLower : List Char := chars "# bug:"

/-- Marker used by the Python code for a claim matching no known bug. -/
def unknownTxt : List Char := chars "UNKNOWN"

/-- Processing of a single candidate paragraph inside the main loop of
analyze_agent_response: strip, drop empty paragraphs, test the bug-indicator
words and the sentinel, extract line and file references, run the matching
loop, and otherwise log an UNKNOWN claim when the paragraph is long enough or
contains the sentinel.  Returns the zero-or-one found_bugs entries the
paragraph contributes. -/
def claimForParagraph (para0 : List Char) (bugs : List Bug) : List FoundBug :=
  let paragraph := pyStrip para0
  if paragraph.isEmpty then []
  else
    let low := pyLower paragraph
    let isBugPara := bugIndicators.any (fun ind => containsSub ind low)
    let sentinelHit := (splitNl low).any (fun ln => containsSub sentinelLower (pyLower ln))
    if isBugPara || sentinelHit then
      let lineNum := extractLineNum low
      let filePath := extractFilePath low
      match matchLoop lineNum filePath low bugs with
      | some (i, mt, desc) => [⟨desc, paragraph, (i : Int), some mt⟩]
      | none =>
        if paragraph.length > 20 || containsSub sentinelLower low then
          [⟨unknownTxt, paragraph, -1, none⟩]
        else []
    else []

/-! ### Numbered-list extraction

Embedding of re.findall with pattern
(?:^|\n)\s*(\d+\.?\s*\*?\*?(?:File:|\*\*File:\*\*)?.*?)(?=\n\s*\d+\.|\Z)
under DOTALL.  Because the lazy tail always succeeds (at worst at end of
input), every greedy piece keeps its maximal extent; the anchor is start of
input or a literal newline, and for the start-of-input attempt the greedy
whitespace subsumes the newline alternative. -/

/-- The lookahead \n\s*\d+\. : a newline, then the maximal whitespace run,
then a nonempty digit run followed by a dot. -/
def lookNum : List Char → Bool
  | [] => false
  | c :: rest =>
    if c = '\n' then
      let r1 := rest.dropWhile pyWs
      !(r1.takeWhile Char.isDigit).isEmpty &&
        ((r1.dropWhile Char.isDigit).head? == some '.')
    else false

/-- The lazy tail .*? stopping at the first position where the numbered-item
lookahead or end of input holds; returns the consumed part and the rest. -/
def takeUntilNum : List Char → List Char × List Char
  | [] => ([], [])
  | c :: rest =>
    if lookNum (c :: rest) then ([], c :: rest)
    else
      let p := takeUntilNum rest
      (c :: p.1, p.2)

/-- The optional pair of markdown stars \*?\*? . -/
def takeStars (s : List Char) : List Char × List Char :=
  if isPrefixB (chars "**") s then (s.take 2, s.drop 2)
  else if isPrefixB (chars "*") s then (s.take 1, s.drop 1)
  else ([], s)

/-- The optional label (?:File:|\*\*File:\*\*)? . -/
def takeFileLabel (s : List Char) : List Char × List Char :=
  if isPrefixB (chars "File:") s then (s.take 5, s.drop 5)
  else if isPrefixB (chars "**File:**") s then (s.take 9, s.drop 9)
  else ([], s)

/-- One match attempt of the numbered-item pattern with the anchor already
consumed: greedy whitespace, then the captured group starting at a nonempty
digit run; returns the captured group and the remaining input at the
lookahead position. -/
def numMatchHere (s : List Char) : Option (List Char × List Char) :=
  let s1 := s.dropWhile pyWs
  let ds := s1.takeWhile Char.isDigit
  if ds.isEmpty then none
  else
    let r1 := s1.dropWhile Char.isDigit
    let dot := if r1.head? == some '.' then r1.take 1 else []
    let r2 := if r1.head? == some '.' then r1.drop 1 else r1
    let w2 := r2.takeWhile pyWs
    let r3 := r2.dropWhile pyWs
    let st := (takeStars r3).1
    let r4 := (takeStars r3).2
    let fl := (takeFileLabel r4).1
    let r5 := (takeFileLabel r4).2
    let tl := (takeUntilNum r5).1
    let rest := (takeUntilNum r5).2
    some (ds ++ (dot ++ (w2 ++ (st ++ (fl ++ tl)))), rest)

theorem takeUntilNum_append (s : List Char) :
    (takeUntilNum s).1 ++ (takeUntilNum s).2 = s := by
  induction s with
  | nil => simp [takeUntilNum]
  | cons c rest ih =>
    simp only [takeUntilNum]
    by_cases h : lookNum (c :: rest) = true
    · simp [h]
    · simp only [Bool.not_eq_true] at h
      simp [h, ih]

theorem takeStars_append (s : List Char) :
    (takeStars s).1 ++ (takeStars s).2 = s := by
  simp only [takeStars]
  split
  · exact List.take_append_drop 2 s
  · split
    · exact List.take_append_drop 1 s
    · rfl

theorem takeFileLabel_append (s : List Char) :
    (takeFileLabel s).1 ++ (takeFileLabel s).2 = s := by
  simp only [takeFileLabel]
  split
  · exact List.take_append_drop 5 s
  · split
    · exact List.take_append_drop 9 s
    · rfl

/-- A successful numbered-item attempt splits the whitespace-stripped input
into the captured group and the rest. -/
theorem numMatchHere_append {s g rest : List Char}
    (h : numMatchHere s = some (g, rest)) : g ++ rest = s.dropWhile pyWs := by
  simp only [numMatchHere] at h
  split at h
  · exact absurd h (by simp)
  · simp only [Option.some.injEq, Prod.mk.injEq] at h
    obtain ⟨hg, hr⟩ := h
    subst hg hr
    simp only [List.append_assoc]
    rw [takeUntilNum_append, takeFileLabel_append, takeStars_append,
      List.takeWhile_append_dropWhile]
    split
    · rw [List.take_append_drop, List.takeWhile_append_dropWhile]
    · rw [List.nil_append, List.takeWhile_append_dropWhile]

theorem numMatchHere_rest_le {s g rest : List Char}
    (h : numMatchHere s = some (g, rest)) : rest.length ≤ s.length := by
  have h1 : g ++ rest = s.dropWhile pyWs := numMatchHere_append h
  have h2 : (s.dropWhile pyWs).length ≤ s.length := dropWhile_length_le _ _
  have h3 : g.length + rest.length = (s.dropWhile pyWs).length := by
    rw [← h1]; simp
  omega

/-- The findall scan for the numbered-item pattern over positions after the
start of input: a match attempt is made after each literal newline, and the
scan resumes at the end of each match.  Structural recursion on a step
counter that dominates the input length. -/
def numScanF : Nat → List Char → List (List Char)
  | 0, _ => []
  | _ + 1, [] => []
  | fuel + 1, c :: r =>
    if c = '\n' then
      match numMatchHere r with
      | some (g, rest) => g :: numScanF fuel rest
      | none => numScanF fuel r
    else numScanF fuel r

/-- The newline-anchored findall scan for the numbered-item pattern. -/
def numScanAux (s : List Char) : List (List Char) := numScanF s.length s

/-- All captured groups of the numbered-item pattern, in match order: the
start-of-input attempt (whose greedy whitespace subsumes the newline
alternative) followed by the newline-anchored scan. -/
def numberedBugs (text : List Char) : List (List Char) :=
  match numMatchHere text with
  | some (g, rest) => g :: numScanAux rest
  | none => numScanAux text

/-! ### File or Line section extraction

Embedding of re.findall with pattern
(?:^|\n)(?:File|Line).*?(?:Bug|Issue|Problem).*?(?=\n\n|\Z)
under DOTALL and IGNORECASE; whole matches are returned, so a match found at
a newline anchor includes that newline. -/

/-- Case-insensitive prefix test; the pattern is given in lowercase. -/
def isPrefixCI : List Char → List Char → Bool
  | [], _ => true
  | _ :: _, [] => false
  | a :: as, b :: bs => pyLowerChar b == a && isPrefixCI as bs

/-- Lazy scan for the first case-insensitive occurrence of Bug, Issue or
Problem (alternatives tried in that order at each position); returns the
consumed text before the occurrence, the occurrence itself in its original
characters, and the rest. -/
def findBIP : List Char → Option (List Char × List Char × List Char)
  | [] => none
  | c :: t =>
    if isPrefixCI (chars "bug") (c :: t) then some ([], (c :: t).take 3, (c :: t).drop 3)
    else if isPrefixCI (chars "issue") (c :: t) then some ([], (c :: t).take 5, (c :: t).drop 5)
    else if isPrefixCI (chars "problem") (c :: t) then some ([], (c :: t).take 7, (c :: t).drop 7)
    else
      match findBIP t with
      | some (a, m, r) => some (c :: a, m, r)
      | none => none

/-- The lookahead \n\n|\Z . -/
def lookBlank : List Char → Bool
  | [] => true
  | '\n' :: '\n' :: _ => true
  | _ => false

/-- The lazy tail .*? stopping at the first blank-line lookahead or end. -/
def takeUntilBlank : List Char → List Char × List Char
  | [] => ([], [])
  | c :: rest =>
    if lookBlank (c :: rest) then ([], c :: rest)
    else
      let p := takeUntilBlank rest
      (c :: p.1, p.2)

/-- One match attempt of the File or Line section pattern with the anchor
already consumed. -/
def flMatchHere (s : List Char) : Option (List Char × List Char) :=
  if isPrefixCI (chars "file") s || isPrefixCI (chars "line") s then
    match findBIP (s.drop 4) with
    | some (a, m, r2) =>
      some (s.take 4 ++ (a ++ (m ++ (takeUntilBlank r2).1)), (takeUntilBlank r2).2)
    | none => none
  else none

theorem takeUntilBlank_append (s : List Char) :
    (takeUntilBlank s).1 ++ (takeUntilBlank s).2 = s := by
  induction s with
  | nil => simp [takeUntilBlank]
  | cons c rest ih =>
    simp only [takeUntilBlank]
    by_cases h : lookBlank (c :: rest) = true
    · simp [h]
    · simp only [Bool.not_eq_true] at h
      simp [h, ih]

theorem findBIP_append {s a m r : List Char} (h : findBIP s = some (a, m, r)) :
    a ++ (m ++ r) = s := by
  induction s generalizing a with
  | nil => simp [findBIP] at h
  | cons c t ih =>
    simp only [findBIP] at h
    split at h
    · simp only [Option.some.injEq, Prod.mk.injEq] at h
      obtain ⟨h1, h2, h3⟩ := h
      subst h1 h2 h3
      simp
    · split at h
      · simp only [Option.some.injEq, Prod.mk.injEq] at h
        obtain ⟨h1, h2, h3⟩ := h
        subst h1 h2 h3
        simp
      · split at h
        · simp only [Option.some.injEq, Prod.mk.injEq] at h
          obtain ⟨h1, h2, h3⟩ := h
          subst h1 h2 h3
          simp
        · revert h
          split
          · rename_i a2 m2 r2 heq
            intro h
            simp only [Option.some.injEq, Prod.mk.injEq] at h
            obtain ⟨h1, h2, h3⟩ := h
            subst h1 h2 h3
            have := ih heq
            simp [this]
          · intro h
            exact absurd h (by simp)

theorem flMatchHere_rest_le {s m rest : List Char}
    (h : flMatchHere s = some (m, rest)) : rest.length ≤ s.length := by
  simp only [flMatchHere] at h
  split at h
  · revert h
    split
    · rename_i a bip r2 heq
      intro h
      simp only [Option.some.injEq, Prod.mk.injEq] at h
      obtain ⟨_, hr⟩ := h
      subst hr
      have h1 : a ++ (bip ++ r2) = s.drop 4 := findBIP_append heq
      have h2 : (takeUntilBlank r2).1 ++ (takeUntilBlank r2).2 = r2 :=
        takeUntilBlank_append r2
      have h3 : (s.drop 4).length ≤ s.length := by
        simp only [List.length_drop]; omega
      have h4 : (a ++ (bip ++ r2)).length = a.length + (bip.length + r2.length) := by
        simp
      have h5 : ((takeUntilBlank r2).1 ++ (takeUntilBlank r2).2).length =
          (takeUntilBlank r2).1.length + (takeUntilBlank r2).2.length := by simp
      rw [h1] at h4
      rw [h2] at h5
      omega
    · intro h
      exact absurd h (by simp)
  · exact absurd h (by simp)

/-- The findall scan for the File or Line section pattern after the start of
input; a match at a newline anchor includes the newline.  Structural
recursion on a step counter that dominates the input length. -/
def flScanF : Nat → List Char → List (List Char)
  | 0, _ => []
  | _ + 1, [] => []
  | fuel + 1, c :: r =>
    if c = '\n' then
      match flMatchHere r with
      | some (m, rest) => ('\n' :: m) :: flScanF fuel rest
      | none => flScanF fuel r
    else flScanF fuel r

/-- The newline-anchored findall scan for the File or Line section pattern. -/
def flScanAux (s : List Char) : List (List Char) := flScanF s.length s

/-- All matches of the File or Line section pattern, in match order. -/
def fileLineSections (text : List Char) : List (List Char) :=
  match flMatchHere text with
  | some (m, rest) => m :: flScanAux rest
  | none => flScanAux text

/-! ### Bold-markdown fallback

Embedding of re.findall with pattern
(?:^|\n)\s*\*\*(.*?)\*\*:?(.*?)(?=\n\s*\*\*|\Z) under DOTALL, returning the
two captured groups of each match. -/

/-- Lazy scan for the first occurrence of a literal double star; returns the
consumed text before it and the rest after it. -/
def findStars2 : List Char → Option (List Char × List Char)
  | [] => none
  | c :: t =>
    if isPrefixB (chars "**") (c :: t) then some ([], (c :: t).drop 2)
    else
      match findStars2 t with
      | some (a, r) => some (c :: a, r)
      | none => none

/-- The lookahead \n\s*\*\*|\Z . -/
def lookBold : List Char → Bool
  | [] => true
  | '\n' :: t => isPrefixB (chars "**") (t.dropWhile pyWs)
  | _ => false

/-- The lazy tail .*? stopping at the first bold-heading lookahead or end. -/
def takeUntilBold : List Char → List Char × List Char
  | [] => ([], [])
  | c :: rest =>
    if lookBold (c :: rest) then ([], c :: rest)
    else
      let p := takeUntilBold rest
      (c :: p.1, p.2)

/-- One match attempt of the bold-heading pattern with the anchor already
consumed: greedy whitespace, a double star, the lazily captured heading, the
closing double star with optional colon, and the lazily captured body. -/
def boldMatchHere (s : List Char) : Option ((List Char × List Char) × List Char) :=
  let s1 := s.dropWhile pyWs
  if isPrefixB (chars "**") s1 then
    match findStars2 (s1.drop 2) with
    | some (g1, r2) =>
      let r3 := if r2.head? == some ':' then r2.drop 1 else r2
      some ((g1, (takeUntilBold r3).1), (takeUntilBold r3).2)
    | none => none
  else none

theorem takeUntilBold_rest_le (s : List Char) :
    (takeUntilBold s).2.length ≤ s.length := by
  induction s with
  | nil => simp [takeUntilBold]
  | cons c rest ih =>
    simp only [takeUntilBold]
    by_cases h : lookBold (c :: rest) = true
    · simp [h]
    · simp only [Bool.not_eq_true] at h
      simp only [h, Bool.false_eq_true, if_false]
      simp only [List.length_cons]
      omega

theorem findStars2_rest_le {s a r : List Char} (h : findStars2 s = some (a, r)) :
    r.length ≤ s.length := by
  induction s generalizing a with
  | nil => simp [findStars2] at h
  | cons c t ih =>
    simp only [findStars2] at h
    split at h
    · simp only [Option.some.injEq, Prod.mk.injEq] at h
      obtain ⟨_, hr⟩ := h
      subst hr
      simp only [List.drop_succ_cons, List.length_cons]
      have := List.length_drop 1 t ▸ (by simp [List.length_drop] : (t.drop 1).length ≤ t.length)
      simp only [List.length_drop]
      omega
    · revert h
      split
      · rename_i a2 r2 heq
        intro h
        simp only [Option.some.injEq, Prod.mk.injEq] at h
        obtain ⟨_, hr⟩ := h
        subst hr
        have := ih heq
        simp only [List.length_cons]
        omega
      · intro h
        exact absurd h (by simp)

theorem boldMatchHere_rest_le {s : List Char} {g : List Char × List Char}
    {rest : List Char} (h : boldMatchHere s = some (g, rest)) :
    rest.length ≤ s.length := by
  simp only [boldMatchHere] at h
  split at h
  · revert h
    split
    · rename_i g1 r2 heq
      intro h
      simp only [Option.some.injEq, Prod.mk.injEq] at h
      obtain ⟨_, hr⟩ := h
      subst hr
      have h1 := findStars2_rest_le heq
      have h2 : ((s.dropWhile pyWs).drop 2).length ≤ s.length := by
        have := dropWhile_length_le pyWs s
        simp only [List.length_drop]
        omega
      have h3 : (if r2.head? == some ':' then r2.drop 1 else r2).length ≤ r2.length := by
        split
        · simp only [List.length_drop]; omega
        · omega
      have h4 := takeUntilBold_rest_le (if r2.head? == some ':' then r2.drop 1 else r2)
      omega
    · intro h
      exact absurd h (by simp)
  · exact absurd h (by simp)

/-- The findall scan for the bold-heading pattern after the start of input.
Structural recursion on a step counter that dominates the input length. -/
def boldScanF : Nat → List Char → List (List Char × List Char)
  | 0, _ => []
  | _ + 1, [] => []
  | fuel + 1, c :: r =>
    if c = '\n' then
      match boldMatchHere r with
      | some (g, rest) => g :: boldScanF fuel rest
      | none => boldScanF fuel r
    else boldScanF fuel r

/-- The newline-anchored findall scan for the bold-heading pattern. -/
def boldScanAux (s : List Char) : List (List Char × List Char) := boldScanF s.length s

/-- All captured group pairs of the bold-heading pattern, in match order. -/
def boldSections (text : List Char) : List (List Char × List Char) :=
  match boldMatchHere text with
  | some (g, rest) => g :: boldScanAux rest
  | none => boldScanAux text

/-- The synthesized heading-colon-body strings appended for bold sections. -/
def boldParagraphs (text : List Char) : List (List Char) :=
  (boldSections text).map (fun g => g.1 ++ (chars ": " ++ g.2))

/-! ### Blank-line split fallback

Embedding of re.split with pattern \n\s*\n : a separator is a newline, the
greedy whitespace run after it backtracked to the last newline it contains,
then that newline. -/

/-- Given the text after a separator-opening newline, consume through the
last newline of the leading whitespace run, if that run contains one. -/
def dropThroughLastNl : List Char → Option (List Char)
  | [] => none
  | c :: t =>
    if pyWs c then
      match dropThroughLastNl t with
      | some rest => some rest
      | none => if c = '\n' then some t else none
    else none

theorem dropThroughLastNl_lt {s rest : List Char}
    (h : dropThroughLastNl s = some rest) : rest.length < s.length := by
  induction s generalizing rest with
  | nil => simp [dropThroughLastNl] at h
  | cons c t ih =>
    simp only [dropThroughLastNl] at h
    split at h
    · revert h
      split
      · rename_i r2 heq
        intro h
        simp only [Option.some.injEq] at h
        subst h
        have := ih heq
        simp only [List.length_cons]
        omega
      · split
        · intro h
          simp only [Option.some.injEq] at h
          subst h
          simp
        · intro h
          exact absurd h (by simp)
    · exact absurd h (by simp)

/-- The splitting scan of re.split on \n\s*\n, carrying the current piece in
reverse.  Structural recursion on a step counter that dominates the input
length. -/
def blankSplitF : Nat → List Char → List Char → List (List Char)
  | 0, acc, _ => [acc.reverse]
  | _ + 1, acc, [] => [acc.reverse]
  | fuel + 1, acc, c :: r =>
    if c = '\n' then
      match dropThroughLastNl r with
      | some rest => acc.reverse :: blankSplitF fuel [] rest
      | none => blankSplitF fuel (c :: acc) r
    else blankSplitF fuel (c :: acc) r

/-- Python re.split of the response on blank-line separators. -/
def blankSplit (text : List Char) : List (List Char) := blankSplitF text.length [] text

/-! ### The paragraph cascade of analyze_agent_response -/

/-- The candidate paragraph list built by analyze_agent_response: numbered
items, then File or Line sections whenever any were found, then bold
sections when still under five paragraphs, then the blank-line split
replacing everything when still under five. -/
def candidateParagraphs (response : List Char) : List (List Char) :=
  let numbered := numberedBugs response
  let fls := fileLineSections response
  let p1 := if fls.isEmpty then numbered else numbered ++ fls
  let p2 := if p1.length < 5 then p1 ++ boldParagraphs response else p1
  if p2.length < 5 then blankSplit response else p2

/-- The dictionary returned by analyze_agent_response, with the float recall
modelled as an exact rational. -/
structure AnalysisResult where
  total_known_bugs : Nat
  bugs_found : Nat
  unique_bugs_found : Nat
  found_bug_details : List FoundBug
  «recall» : ℚ
  unmatched_bugs : Nat
deriving DecidableEq, Repr

/-- Embedding of analyze_agent_response: segment the response, classify each
paragraph, and aggregate the matched claims into the metrics dictionary. -/
def analyze_agent_response (response : List Char) (known_bugs : List Bug) :
    AnalysisResult :=
  let paragraphs := candidateParagraphs response
  let found := (paragraphs.map (fun p => claimForParagraph p known_bugs)).flatten
  let matched := found.filter (fun b => !(b.known_bug == unknownTxt))
  let uniq := ((matched.map (fun b => b.bug_index)).filter (fun i => decide (0 ≤ i))).dedup
  { total_known_bugs := known_bugs.length
    bugs_found := matched.length
    unique_bugs_found := uniq.length
    found_bug_details := found
    «recall» := if known_bugs.isEmpty then 0 else (uniq.length : ℚ) / (known_bugs.length : ℚ)
    unmatched_bugs := (found.filter (fun b => b.known_bug == unknownTxt)).length }

/-! ### Aggregation over agents and ranking -/

/-- One per-agent result object as built by run_agent in the harness. -/
structure AgentResultRec where
  agent : List Char
  success : Bool
  response : List Char
  stderr : Option (List Char)
deriving DecidableEq, Repr

/-- One entry of the evaluation dictionary built by
calculate_evaluation_metrics.  The Python dict for a failed agent lacks the
unique_bugs_found and unmatched_bugs keys and the dict for a successful agent
lacks the error key; absent keys are modelled by none. -/
structure EvalEntry where
  total_known_bugs : Nat
  bugs_found : Nat
  unique_bugs_found : Option Nat
  found_bug_details : List FoundBug
  «recall» : ℚ
  unmatched_bugs : Option Nat
  error : Option (List Char)
deriving DecidableEq, Repr

/-- The evaluation entry for a successful agent: the analysis dictionary. -/
def evalEntryOfAnalysis (a : AnalysisResult) : EvalEntry :=
  ⟨a.total_known_bugs, a.bugs_found, some a.unique_bugs_found,
   a.found_bug_details, a.«recall», some a.unmatched_bugs, none⟩

/-- The per-agent branch of calculate_evaluation_metrics: analyze on success,
otherwise a zero-recall entry with the stderr message attached. -/
def evalEntryFor (known_bugs : List Bug) (r : AgentResultRec) : EvalEntry :=
  if r.success then evalEntryOfAnalysis (analyze_agent_response r.response known_bugs)
  else ⟨known_bugs.length, 0, none, [], 0, none, r.stderr⟩

/-- Embedding of calculate_evaluation_metrics over the insertion-ordered
results mapping, modelled as an association list. -/
def calculate_evaluation_metrics (results : List (List Char × AgentResultRec))
    (known_bugs : List Bug) : List (List Char × EvalEntry) :=
  results.map (fun p => (p.1, evalEntryFor known_bugs p.2))

/-- Insertion step of a stable descending sort on the recall field: the new
element is placed before the first entry whose recall does not exceed it, so
earlier input elements precede later ones with equal recall. -/
def insertByRecall (x : List Char × EvalEntry) :
    List (List Char × EvalEntry) → List (List Char × EvalEntry)
  | [] => [x]
  | y :: ys =>
    if y.2.«recall» ≤ x.2.«recall» then x :: y :: ys else y :: insertByRecall x ys

/-- Embedding of get_sorted_evaluation: Python sorted with the recall key and
reverse set, which is specified as a stable descending sort; realized here as
a stable insertion sort. -/
def get_sorted_evaluation : List (List Char × EvalEntry) → List (List Char × EvalEntry)
  | [] => []
  | a :: l => insertByRecall a (get_sorted_evaluation l)

/-! ### Harness: agent invocation -/

/-- Outcome of the external agent wrapper call: Python raising TimeoutError
or any other exception, modelled as error values. -/
inductive AgentFailure where
  | timeout
  | exc (msg : List Char)
deriving DecidableEq, Repr

/-- Embedding of EvaluationHarness.run_agent: the try block converts every
wrapper outcome into a structured result record and never lets an exception
escape. -/
def run_agent (wrapper : List Char → Except AgentFailure (List Char))
    (agentScript : List Char) : AgentResultRec :=
  match wrapper agentScript with
  | Except.ok resp => ⟨agentScript, true, resp, none⟩
  | Except.error AgentFailure.timeout =>
    ⟨agentScript, false, chars "Timeout - agent took too long to respond",
     some (chars "Process timed out")⟩
  | Except.error (AgentFailure.exc e) =>
    ⟨agentScript, false, chars "Error running agent", some e⟩

/-- Embedding of EvaluationHarness.run_all_agents: every agent in the list is
invoked and its result recorded under its name. -/
def run_all_agents (wrapper : List Char → Except AgentFailure (List Char))
    (agents : List (List Char)) : List (List Char × AgentResultRec) :=
  agents.map (fun a => (a, run_agent wrapper a))

/-! ### Harness: bug scanning

The file system visible to os.walk is modelled as a list of directories in
traversal order, each with its path and its regular files.  Modelled from the
documented behaviour of os.walk with the default onerror of None: walking a
top directory that does not exist yields no entries and raises nothing. -/

/-- A regular file: name and content lines (each line without its trailing
newline). -/
structure PyFile where
  name : List Char
  lines : List (List Char)
deriving DecidableEq, Repr

/-- A directory entry of the walk: its full path and its files. -/
structure WalkDir where
  path : List Char
  files : List PyFile
deriving DecidableEq, Repr

/-- os.walk over the modelled file system: the directories at or below the
root, in traversal order; a nonexistent root yields nothing, silently. -/
def osWalk (fs : List WalkDir) (root : List Char) : List WalkDir :=
  fs.filter (fun d => d.path == root || isPrefixB (root ++ chars "/") d.path)

/-- Embedding of re.search with the default bug pattern # BUG:\s*(.*) on one
line, followed by the strip applied to the captured group: the leftmost
sentinel occurrence, with the stripped remainder of the line as description. -/
def bugSearchLine : List Char → Option (List Char)
  | [] => none
  | c :: t =>
    if isPrefixB (chars "# BUG:") (c :: t) then
      some (pyStrip (((c :: t).drop 6).dropWhile pyWs))
    else bugSearchLine t

/-- The line loop of _extract_bugs_from_file with one-based line numbers. -/
def extractLines (relPath : List Char) : Nat → List (List Char) → List Bug
  | _, [] => []
  | i, ln :: rest =>
    match bugSearchLine ln with
    | some d => ⟨relPath, i, d⟩ :: extractLines relPath (i + 1) rest
    | none => extractLines relPath (i + 1) rest

/-- Path of a file relative to the scanned root, as produced by
Path.relative_to for files under the root. -/
def relOf (root dirPath name : List Char) : List Char :=
  if dirPath == root then name
  else (dirPath.drop (root.length + 1)) ++ (chars "/" ++ name)

/-- Embedding of EvaluationHarness.scan_for_bugs: the walk appends, onto the
bug list already accumulated on the harness, one record per sentinel match in
every file ending in .py, in traversal order then line order.  The
accumulator parameter models the mutable self.bugs list, which the method
extends without clearing. -/
def scan_for_bugs (fs : List WalkDir) (root : List Char) (bugsAcc : List Bug) :
    List Bug :=
  bugsAcc ++ (osWalk fs root).flatMap (fun d =>
    (d.files.filter (fun f => isPrefixB (chars "yp.") f.name.reverse)).flatMap
      (fun f => extractLines (relOf root d.path f.name) 1 f.lines))

/-! ### Structural lemmas about the matching loop -/

/-- A successful matching loop returns an index inside the bug list. -/
theorem matchLoop_lt {ln : Option Nat} {fp : Option (List Char)} {para : List Char} :
    ∀ {bugs : List Bug} {i : Nat} {mt : MatchType} {d : List Char},
    matchLoop ln fp para bugs = some (i, mt, d) → i < bugs.length := by
  intro bugs
  induction bugs with
  | nil => intro i mt d h; simp [matchLoop] at h
  | cons b rest ih =>
    intro i mt d h
    simp only [matchLoop] at h
    split at h
    · simp only [Option.some.injEq, Prod.mk.injEq] at h
      obtain ⟨h1, _⟩ := h
      subst h1
      simp
    · split at h
      · simp only [Option.some.injEq, Prod.mk.injEq] at h
        obtain ⟨h1, _⟩ := h
        subst h1
        simp
      · split at h
        · simp only [Option.some.injEq, Prod.mk.injEq] at h
          obtain ⟨h1, _⟩ := h
          subst h1
          simp
        · simp only [Option.map_eq_some'] at h
          obtain ⟨⟨j, mt2, d2⟩, hj, hji⟩ := h
          simp only [Prod.mk.injEq] at hji
          obtain ⟨h1, _⟩ := hji
          subst h1
          have := ih hj
          simp only [List.length_cons]
          omega

/-- When the matching loop settles on a weaker-than-line-number match at some
index, no bug at that index or before it passes the line-number test: the
line-number check is applied to each bug before the weaker checks, so only a
weaker match against an earlier bug can come out. -/
theorem matchLoop_weak_no_earlier_line {ln : Option Nat} {fp : Option (List Char)}
    {para : List Char} :
    ∀ {bugs : List Bug} {i : Nat} {mt : MatchType} {d : List Char},
    matchLoop ln fp para bugs = some (i, mt, d) → mt ≠ MatchType.line_number →
    ∀ j : Nat, j ≤ i → ∀ hj : j < bugs.length, lineHit ln (bugs.get ⟨j, hj⟩).line = false := by
  intro bugs
  induction bugs with
  | nil => intro i mt d h; simp [matchLoop] at h
  | cons b rest ih =>
    intro i mt d h hmt j hji hj
    simp only [matchLoop] at h
    split at h
    · simp only [Option.some.injEq, Prod.mk.injEq] at h
      obtain ⟨_, h2, _⟩ := h
      exact absurd h2.symm hmt
    · rename_i hline
      split at h
      · simp only [Option.some.injEq, Prod.mk.injEq] at h
        obtain ⟨h1, _⟩ := h
        subst h1
        interval_cases j
        simpa using hline
      · split at h
        · simp only [Option.some.injEq, Prod.mk.injEq] at h
          obtain ⟨h1, _⟩ := h
          subst h1
          interval_cases j
          simpa using hline
        · simp only [Option.map_eq_some'] at h
          obtain ⟨⟨i2, mt2, d2⟩, hrec, heq⟩ := h
          simp only [Prod.mk.injEq] at heq
          obtain ⟨h1, h2, h3⟩ := heq
          subst h1 h2 h3
          match j with
          | 0 => simpa using hline
          | j2 + 1 =>
            have hj2 : j2 < rest.length := by
              simp only [List.length_cons] at hj
              omega
            have := ih hrec hmt j2 (by omega) hj2
            simpa using this

/-- Every found_bugs entry produced for a paragraph is either the UNKNOWN
record with index minus one, or carries the index of a bug inside the list. -/
theorem claimForParagraph_shape {p : List Char} {bugs : List Bug} {fb : FoundBug}
    (h : fb ∈ claimForParagraph p bugs) :
    fb.known_bug = unknownTxt ∧ fb.bug_index = -1 ∨
      0 ≤ fb.bug_index ∧ fb.bug_index < (bugs.length : Int) := by
  simp only [claimForParagraph] at h
  split at h
  · simp at h
  · split at h
    · revert h
      split
      · rename_i i mt d hm
        intro h
        simp only [List.mem_singleton] at h
        subst h
        right
        constructor
        · show (0 : Int) ≤ (i : Int)
          positivity
        · show ((i : Nat) : Int) < (bugs.length : Int)
          exact_mod_cast matchLoop_lt hm
      · intro h
        split at h
        · simp only [List.mem_singleton] at h
          subst h
          left
          exact ⟨rfl, rfl⟩
        · simp at h
    · simp at h

/-- C1: in the result of analyze_agent_response the recall is the number of
distinct matched bug indices divided by the number of known bugs, taken as
zero for an empty bug list; every matched entry's bug index lies inside the
list; recall always lies between zero and one; and unique_bugs_found counts
each matched index once, as the cardinality of the set of matched indices. -/
theorem C1_recall_invariants (response : List Char) (bugs : List Bug) :
    (0 ≤ (analyze_agent_response response bugs).«recall» ∧
      (analyze_agent_response response bugs).«recall» ≤ 1) ∧
    (analyze_agent_response response bugs).«recall» =
      (if bugs.isEmpty then 0 else
        ((analyze_agent_response response bugs).unique_bugs_found : ℚ) /
          (bugs.length : ℚ)) ∧
    ((analyze_agent_response response bugs).found_bug_details.all
      (fun fb => fb.known_bug == unknownTxt ||
        decide (0 ≤ fb.bug_index ∧ fb.bug_index < (bugs.length : Int)))) = true ∧
    (analyze_agent_response response bugs).unique_bugs_found =
      ((((analyze_agent_response response bugs).found_bug_details.filter
          (fun b => !(b.known_bug == unknownTxt))).map
            (fun b => b.bug_index)).filter (fun i => decide (0 ≤ i))).toFinset.card := by
  have hshape : ∀ fb ∈ ((candidateParagraphs response).map
      (fun p => claimForParagraph p bugs)).flatten,
      fb.known_bug = unknownTxt ∧ fb.bug_index = -1 ∨
        0 ≤ fb.bug_index ∧ fb.bug_index < (bugs.length : Int) := by
    intro fb hfb
    rw [List.mem_flatten] at hfb
    obtain ⟨l, hl, hfbl⟩ := hfb
    rw [List.mem_map] at hl
    obtain ⟨p, _, hpl⟩ := hl
    subst hpl
    exact claimForParagraph_shape hfbl
  simp only [analyze_agent_response]
  set F := ((candidateParagraphs response).map
    (fun p => claimForParagraph p bugs)).flatten with hF
  set X := ((F.filter (fun b => !(b.known_bug == unknownTxt))).map
    (fun b => b.bug_index)).filter (fun i => decide (0 ≤ i)) with hX
  have hXmem : ∀ i ∈ X, 0 ≤ i ∧ i < (bugs.length : Int) := by
    intro i hi
    rw [hX] at hi
    rw [List.mem_filter] at hi
    obtain ⟨hi1, _⟩ := hi
    rw [List.mem_map] at hi1
    obtain ⟨fb, hfb, hid⟩ := hi1
    rw [List.mem_filter] at hfb
    obtain ⟨hfbF, hfbU⟩ := hfb
    have := hshape fb hfbF
    rcases this with ⟨hu, _⟩ | ⟨h0, hn⟩
    · exfalso
      rw [hu] at hfbU
      simp at hfbU
    · subst hid
      exact ⟨h0, hn⟩
  have hdedup : X.dedup.length = X.toFinset.card := (List.card_toFinset X).symm
  have hsub : X.toFinset ⊆ Finset.Ico (0 : Int) (bugs.length : Int) := by
    intro i hi
    rw [List.mem_toFinset] at hi
    have := hXmem i hi
    rw [Finset.mem_Ico]
    exact this
  have hcardle : X.toFinset.card ≤ bugs.length := by
    have := Finset.card_le_card hsub
    rwa [Int.card_Ico, Int.sub_zero, Int.toNat_natCast] at this
  have hlen : X.dedup.length ≤ bugs.length := by omega
  refine ⟨?_, ?_, ?_, ?_⟩
  · constructor
    · show (0 : ℚ) ≤ (if bugs.isEmpty then 0 else (X.dedup.length : ℚ) / (bugs.length : ℚ))
      split
      · norm_num
      · positivity
    · show (if bugs.isEmpty then 0 else (X.dedup.length : ℚ) / (bugs.length : ℚ)) ≤ 1
      split
      · norm_num
      · rename_i hne
        have hpos : 0 < bugs.length := by
          cases bugs with
          | nil => simp at hne
          | cons a t => simp
        rw [div_le_one (by exact_mod_cast hpos)]
        exact_mod_cast hlen
  · simp
  · rw [List.all_eq_true]
    intro fb hfb
    have := hshape fb hfb
    rcases this with ⟨hu, _⟩ | ⟨h0, hn⟩
    · simp [hu]
    · simp [h0, hn]
  · simpa using hdedup

/-- Concrete bug list refuting the unconditional line-number precedence: the
bug with the matching line number is second in the list. -/
def c2bugs : List Bug :=
  [⟨chars "a.py", 99, chars "alpha beta gamma"⟩,
   ⟨chars "b.py", 24, chars "unrelated words entirely"⟩]

/-- Concrete response whose single paragraph claims line 24 and repeats two
keywords of the first bug's description. -/
def c2resp : List Char := chars "Bug on line 24: alpha beta"

/-- C2 counterexample: the paragraph's claimed line number is 24, which is
exactly the line of the second known bug, yet the emitted claim has keyword
match kind, because the keyword check against the earlier first bug fires
before the line-number check against the second bug is ever reached. -/
theorem C2_counterexample :
    extractLineNum (pyLower (pyStrip c2resp)) = some 24 ∧
    (c2bugs[1]?).map Bug.line = some 24 ∧
    (analyze_agent_response c2resp c2bugs).found_bug_details.map
      (fun fb => fb.match_type) = [some MatchType.keyword] := by
  decide

/-- C2 amended: an exact line-number match is never overridden by a
file-plus-keyword or keyword-only match against the same bug or any later
bug; whenever a claim comes out of the matching loop with a weaker match
kind, no bug at or before the matched index passes the line-number test (a
weaker match against an earlier bug, however, can preempt a line-number match
against a later bug). -/
theorem C2_line_precedence (para : List Char) (bugs : List Bug) (fb : FoundBug)
    (hfb : fb ∈ claimForParagraph para bugs) (mt : MatchType)
    (hmt : fb.match_type = some mt) (hne : mt ≠ MatchType.line_number) :
    ∀ j : Nat, (j : Int) ≤ fb.bug_index → ∀ hj : j < bugs.length,
      lineHit (extractLineNum (pyLower (pyStrip para))) (bugs.get ⟨j, hj⟩).line = false := by
  intro j hji hj
  simp only [claimForParagraph] at hfb
  split at hfb
  · simp at hfb
  · split at hfb
    · revert hfb
      split
      · rename_i i mt2 d hm
        intro hfb
        simp only [List.mem_singleton] at hfb
        subst hfb
        simp only [Option.some.injEq] at hmt
        subst hmt
        have hji3 : (j : Int) ≤ (i : Int) := hji
        have hji2 : j ≤ i := by exact_mod_cast hji3
        exact matchLoop_weak_no_earlier_line hm hne j hji2 hj
      · intro hfb
        split at hfb
        · simp only [List.mem_singleton] at hfb
          subst hfb
          simp at hmt
        · simp at hfb
    · simp at hfb

/-- C2 witness: the amended precedence theorem applied to the concrete
counterexample data at bug index zero. -/
theorem C2_line_precedence_witness :
    lineHit (extractLineNum (pyLower (pyStrip c2resp)))
      ((c2bugs.get ⟨0, by decide⟩).line) = false :=
  C2_line_precedence c2resp c2bugs
    ⟨pyLower (chars "alpha beta gamma"), pyStrip c2resp, 0, some MatchType.keyword⟩
    (by decide) MatchType.keyword rfl (by decide) 0 (by decide) (by decide)

/-- Concrete file system for the missing-root scan: the only directory that
exists is test_codebase. -/
def c3fs : List WalkDir :=
  [⟨chars "test_codebase",
    [⟨chars "app.py", [chars "x = 1  # BUG: something wrong"]⟩]⟩]

/-- C3 counterexample: scanning a root that does not exist in the file system
silently produces an empty bug list; the embedded scan is a total function
with no error outcome, mirroring the code, which performs no existence check
and reports no configuration error. -/
theorem C3_counterexample :
    osWalk c3fs (chars "missing_dir") = [] ∧
    scan_for_bugs c3fs (chars "missing_dir") [] = [] := by
  decide

/-- C3 amended: when the scan root matches no directory of the file system,
scan_for_bugs returns an empty bug list rather than failing: os.walk yields
nothing for a nonexistent top directory and the harness checks nothing. -/
theorem C3_missing_root_silent (fs : List WalkDir) (root : List Char)
    (h : fs.all (fun d => !(d.path == root || isPrefixB (root ++ chars "/") d.path)) = true) :
    scan_for_bugs fs root [] = [] := by
  have hwalk : osWalk fs root = [] := by
    rw [osWalk, List.filter_eq_nil_iff]
    intro d hd
    rw [List.all_eq_true] at h
    have := h d hd
    simpa using this
  rw [scan_for_bugs, hwalk]
  simp

/-- C3 witness: the amended theorem applied to the concrete file system and
missing root. -/
theorem C3_missing_root_silent_witness :
    scan_for_bugs c3fs (chars "missing_dir") [] = [] :=
  C3_missing_root_silent c3fs (chars "missing_dir") (by decide)

/-- The ground truth of the compact file-colon-line scenario. -/
def c4bugs : List Bug :=
  [⟨chars "cache.py", 24, chars "Using OrderedDict for LRU but not maintaining order properly"⟩]

/-- The response of the compact file-colon-line scenario. -/
def c4resp : List Char :=
  chars "1. cache.py:24 - Using OrderedDict for LRU but not maintaining order properly. Solution: move to end on access."

/-- On the scenario input no paragraph yields any found_bugs entry. -/
theorem c4_found_empty :
    ((candidateParagraphs c4resp).map (fun p => claimForParagraph p c4bugs)).flatten = [] := by
  decide

/-- C4 counterexample: on the scenario input the computed recall is not one. -/
theorem C4_counterexample : (analyze_agent_response c4resp c4bugs).«recall» ≠ 1 := by
  have h := c4_found_empty
  simp only [analyze_agent_response, h]
  norm_num [c4bugs]

/-- C4 amended: on the scenario input the evaluation yields recall zero and
no claims at all: the single candidate paragraph contains no bug-indicator
word, so it is dropped before any matching; in particular the line-number
pattern, which requires a literal line label, never sees the compact
file-colon-line form. -/
theorem C4_compact_form_scenario :
    (analyze_agent_response c4resp c4bugs).«recall» = 0 ∧
    (analyze_agent_response c4resp c4bugs).found_bug_details = [] ∧
    (analyze_agent_response c4resp c4bugs).bugs_found = 0 ∧
    (bugIndicators.any (fun ind => containsSub ind (pyLower (pyStrip c4resp)))) = false ∧
    extractLineNum (pyLower (pyStrip c4resp)) = none := by
  have h := c4_found_empty
  refine ⟨?_, ?_, ?_, by decide, by decide⟩
  · simp only [analyze_agent_response, h]
    norm_num [c4bugs]
  · simp only [analyze_agent_response, h]
  · simp only [analyze_agent_response, h]
    simp

/-- Concrete response with five numbered items and a trailing File section. -/
def c5resp : List Char :=
  chars "1. a bug\n2. b bug\n3. c bug\n4. d bug\n5. e bug\nFile: x.py has a Bug here"

/-- C5 counterexample: the numbered-list extraction already yields five
paragraphs, yet the File section block is still appended to the candidate
set, because the code appends File or Line sections whenever any were found,
with no five-paragraph threshold on that step. -/
theorem C5_counterexample :
    (numberedBugs c5resp).length = 5 ∧
    fileLineSections c5resp = [chars "\nFile: x.py has a Bug here"] ∧
    candidateParagraphs c5resp =
      numberedBugs c5resp ++ [chars "\nFile: x.py has a Bug here"] := by
  refine ⟨by decide, by decide, ?_⟩
  decide

/-- C5 amended: File or Line section extraction always runs and its blocks
are appended to the candidate set whenever any were found, regardless of how
many paragraphs the numbered-list extraction produced; only the bold-section
and blank-line-split steps are gated by the five-paragraph threshold. -/
theorem C5_file_line_always_appended (r : List Char)
    (h1 : fileLineSections r ≠ []) (h2 : 5 ≤ (numberedBugs r).length) :
    candidateParagraphs r = numberedBugs r ++ fileLineSections r := by
  simp only [candidateParagraphs]
  have hne : (fileLineSections r).isEmpty = false := by
    cases hfl : fileLineSections r with
    | nil => exact absurd hfl h1
    | cons a t => simp
  simp only [hne, Bool.false_eq_true, if_false]
  have hlen : ¬ ((numberedBugs r ++ fileLineSections r).length < 5) := by
    simp only [List.length_append]
    omega
  rw [if_neg hlen, if_neg hlen]

/-- C5 witness: the amended theorem applied to the concrete response. -/
theorem C5_file_line_always_appended_witness :
    candidateParagraphs c5resp = numberedBugs c5resp ++ fileLineSections c5resp :=
  C5_file_line_always_appended c5resp (by decide) (by decide)

/-! ### General lemmas for the segmentation proofs -/

theorem isPrefixB_iff {p s : List Char} : isPrefixB p s = true ↔ ∃ t, s = p ++ t := by
  induction p generalizing s with
  | nil => simp [isPrefixB]
  | cons a as ih =>
    cases s with
    | nil => simp [isPrefixB]
    | cons b bs =>
      simp only [isPrefixB, Bool.and_eq_true, beq_iff_eq]
      constructor
      · rintro ⟨rfl, h⟩
        obtain ⟨t, rfl⟩ := ih.mp h
        exact ⟨t, rfl⟩
      · rintro ⟨t, ht⟩
        simp only [List.cons_append, List.cons.injEq] at ht
        obtain ⟨rfl, ht2⟩ := ht
        exact ⟨rfl, ih.mpr ⟨t, ht2⟩⟩

theorem takeWhile_append_all {p : Char → Bool} {l1 l2 : List Char}
    (h : ∀ x ∈ l1, p x = true) : (l1 ++ l2).takeWhile p = l1 ++ l2.takeWhile p := by
  induction l1 with
  | nil => simp
  | cons a t ih =>
    have ha : p a = true := h a (by simp)
    simp only [List.cons_append, List.takeWhile_cons, ha, if_true]
    rw [ih (fun x hx => h x (by simp [hx]))]

theorem dropWhile_append_all {p : Char → Bool} {l1 l2 : List Char}
    (h : ∀ x ∈ l1, p x = true) : (l1 ++ l2).dropWhile p = l2.dropWhile p := by
  induction l1 with
  | nil => simp
  | cons a t ih =>
    have ha : p a = true := h a (by simp)
    simp only [List.cons_append, List.dropWhile_cons, ha, if_true]
    exact ih (fun x hx => h x (by simp [hx]))

theorem dropWhile_cons_head_false {p : Char → Bool} {l : List Char} {y : Char}
    {v : List Char} (h : l.dropWhile p = y :: v) : p y = false := by
  induction l with
  | nil => simp [List.dropWhile] at h
  | cons a t ih =>
    rw [List.dropWhile_cons] at h
    by_cases ha : p a = true
    · rw [if_pos ha] at h
      exact ih h
    · rw [if_neg ha] at h
      injection h with h1 _
      subst h1
      simpa using ha

/-! Fuel stability and unfolding equations for the findall scanners. -/

theorem numScanF_congr : ∀ (f1 f2 : Nat) (s : List Char), s.length ≤ f1 → s.length ≤ f2 →
    numScanF f1 s = numScanF f2 s := by
  intro f1
  induction f1 with
  | zero =>
    intro f2 s h1 _
    have hs : s = [] := List.eq_nil_of_length_eq_zero (Nat.le_zero.mp h1)
    subst hs
    cases f2 <;> rfl
  | succ f ih =>
    intro f2 s h1 h2
    cases s with
    | nil => cases f2 <;> rfl
    | cons c r =>
      cases f2 with
      | zero => simp at h2
      | succ f2b =>
        simp only [List.length_cons, Nat.succ_le_succ_iff] at h1 h2
        simp only [numScanF]
        by_cases hc : c = '\n'
        · rw [if_pos hc, if_pos hc]
          cases hm : numMatchHere r with
          | some gr =>
            have hrest := numMatchHere_rest_le hm
            obtain ⟨g, rest⟩ := gr
            simp only []
            rw [ih f2b rest (by simp at hrest; omega) (by simp at hrest; omega)]
          | none =>
            simp only []
            rw [ih f2b r h1 h2]
        · rw [if_neg hc, if_neg hc]
          exact ih f2b r h1 h2

theorem numScanAux_cons_nl (r : List Char) :
    numScanAux ('\n' :: r) =
      match numMatchHere r with
      | some (g, rest) => g :: numScanAux rest
      | none => numScanAux r := by
  simp only [numScanAux, List.length_cons, numScanF, if_pos rfl]
  cases hm : numMatchHere r with
  | some gr =>
    obtain ⟨g, rest⟩ := gr
    have hrest := numMatchHere_rest_le hm
    simp only []
    rw [numScanF_congr r.length rest.length rest hrest le_rfl]
    simp
  | none => rfl

theorem numScanAux_cons_ne {c : Char} (h : c ≠ '\n') (r : List Char) :
    numScanAux (c :: r) = numScanAux r := by
  simp only [numScanAux, List.length_cons, numScanF, if_neg h]

theorem flScanF_congr : ∀ (f1 f2 : Nat) (s : List Char), s.length ≤ f1 → s.length ≤ f2 →
    flScanF f1 s = flScanF f2 s := by
  intro f1
  induction f1 with
  | zero =>
    intro f2 s h1 _
    have hs : s = [] := List.eq_nil_of_length_eq_zero (Nat.le_zero.mp h1)
    subst hs
    cases f2 <;> rfl
  | succ f ih =>
    intro f2 s h1 h2
    cases s with
    | nil => cases f2 <;> rfl
    | cons c r =>
      cases f2 with
      | zero => simp at h2
      | succ f2b =>
        simp only [List.length_cons, Nat.succ_le_succ_iff] at h1 h2
        simp only [flScanF]
        by_cases hc : c = '\n'
        · rw [if_pos hc, if_pos hc]
          cases hm : flMatchHere r with
          | some gr =>
            have hrest := flMatchHere_rest_le hm
            obtain ⟨g, rest⟩ := gr
            simp only []
            rw [ih f2b rest (by simp at hrest; omega) (by simp at hrest; omega)]
          | none =>
            simp only []
            rw [ih f2b r h1 h2]
        · rw [if_neg hc, if_neg hc]
          exact ih f2b r h1 h2

theorem flScanAux_cons_nl (r : List Char) :
    flScanAux ('\n' :: r) =
      match flMatchHere r with
      | some (m, rest) => ('\n' :: m) :: flScanAux rest
      | none => flScanAux r := by
  simp only [flScanAux, List.length_cons, flScanF, if_pos rfl]
  cases hm : flMatchHere r with
  | some gr =>
    obtain ⟨m, rest⟩ := gr
    have hrest := flMatchHere_rest_le hm
    simp only []
    rw [flScanF_congr r.length rest.length rest hrest le_rfl]
    simp
  | none => rfl

theorem flScanAux_cons_ne {c : Char} (h : c ≠ '\n') (r : List Char) :
    flScanAux (c :: r) = flScanAux r := by
  simp only [flScanAux, List.length_cons, flScanF, if_neg h]

theorem blankSplitF_congr : ∀ (f1 f2 : Nat) (acc s : List Char),
    s.length ≤ f1 → s.length ≤ f2 → blankSplitF f1 acc s = blankSplitF f2 acc s := by
  intro f1
  induction f1 with
  | zero =>
    intro f2 acc s h1 _
    have hs : s = [] := List.eq_nil_of_length_eq_zero (Nat.le_zero.mp h1)
    subst hs
    cases f2 <;> rfl
  | succ f ih =>
    intro f2 acc s h1 h2
    cases s with
    | nil => cases f2 <;> rfl
    | cons c r =>
      cases f2 with
      | zero => simp at h2
      | succ f2b =>
        simp only [List.length_cons, Nat.succ_le_succ_iff] at h1 h2
        simp only [blankSplitF]
        by_cases hc : c = '\n'
        · rw [if_pos hc, if_pos hc]
          cases hm : dropThroughLastNl r with
          | some rest =>
            have hrest := dropThroughLastNl_lt hm
            simp only []
            rw [ih f2b [] rest (by omega) (by omega)]
          | none =>
            simp only []
            rw [ih f2b (c :: acc) r h1 h2]
        · rw [if_neg hc, if_neg hc]
          exact ih f2b (c :: acc) r h1 h2

/-- The splitting scan at a stated accumulator, fuelled by the input length. -/
def blankSplitAux (acc s : List Char) : List (List Char) := blankSplitF s.length acc s

theorem blankSplitAux_cons_nl (acc r : List Char) :
    blankSplitAux acc ('\n' :: r) =
      match dropThroughLastNl r with
      | some rest => acc.reverse :: blankSplitAux [] rest
      | none => blankSplitAux ('\n' :: acc) r := by
  simp only [blankSplitAux, List.length_cons, blankSplitF, if_pos rfl]
  cases hm : dropThroughLastNl r with
  | some rest =>
    have hrest := dropThroughLastNl_lt hm
    simp only []
    rw [blankSplitF_congr r.length rest.length [] rest (by omega) le_rfl]
    simp
  | none => rfl

theorem blankSplitAux_cons_ne {c : Char} (h : c ≠ '\n') (acc r : List Char) :
    blankSplitAux acc (c :: r) = blankSplitAux (c :: acc) r := by
  simp only [blankSplitAux, List.length_cons, blankSplitF, if_neg h]

/-! ### The numbered-item match on a well-formed item -/

theorem lookNum_cons_ne {c : Char} (h : c ≠ '\n') (l : List Char) :
    lookNum (c :: l) = false := by
  simp [lookNum, h]

/-- The lazy tail consumes a newline-free block exactly up to a stop: either
end of input or a position where the lookahead holds. -/
theorem takeUntilNum_no_nl {z r : List Char} (hz : ∀ x ∈ z, x ≠ '\n')
    (hr : r = [] ∨ lookNum r = true) :
    takeUntilNum (z ++ r) = (z, r) := by
  induction z with
  | nil =>
    simp only [List.nil_append]
    rcases hr with rfl | hl
    · rfl
    · cases r with
      | nil => rfl
      | cons c t => simp [takeUntilNum, hl]
  | cons a z2 ih =>
    have ha : a ≠ '\n' := hz a (by simp)
    have hlook : lookNum (a :: (z2 ++ r)) = false := lookNum_cons_ne ha _
    simp only [List.cons_append, takeUntilNum, List.append_eq, hlook, Bool.false_eq_true,
      if_false]
    rw [ih (fun x hx => hz x (by simp [hx]))]

/-- Splitting a concatenation with a newline-free left part against a
decomposition whose right part is empty or newline-fronted. -/
theorem split_before_nl {zz r p q : List Char}
    (hpq : p ++ q = zz ++ r) (hp : ∀ x ∈ p, x ≠ '\n') (hzz : ∀ x ∈ zz, x ≠ '\n')
    (hr : r = [] ∨ ∃ r2, r = '\n' :: r2) :
    ∃ w, q = w ++ r ∧ ∀ x ∈ w, x ≠ '\n' := by
  rcases List.append_eq_append_iff.mp hpq with ⟨a2, ha1, ha2⟩ | ⟨c2, hc1, hc2⟩
  · refine ⟨a2, ha2, fun x hx => hzz x ?_⟩
    rw [ha1]
    exact List.mem_append_right p hx
  · rcases hr with rfl | ⟨r2, rfl⟩
    · have : c2 = [] ∧ q = [] := by
        constructor
        · cases c2 with
          | nil => rfl
          | cons e es => simp at hc2
        · cases c2 with
          | nil => simpa using hc2.symm
          | cons e es => simp at hc2
      obtain ⟨_, hq⟩ := this
      exact ⟨[], by simp [hq], by simp⟩
    · cases c2 with
      | nil =>
        refine ⟨[], ?_, by simp⟩
        simpa using hc2.symm
      | cons e es =>
        exfalso
        have he : e = '\n' := by
          have := hc2
          simp only [List.cons_append] at this
          injection this with h1 _
          exact h1.symm
        have hmem : e ∈ p := by
          rw [hc1]
          exact List.mem_append_right zz (by simp)
        exact hp e hmem he

theorem takeStars_no_nl (s : List Char) : ∀ x ∈ (takeStars s).1, x ≠ '\n' := by
  simp only [takeStars]
  split
  · rename_i h
    obtain ⟨t, rfl⟩ := isPrefixB_iff.mp h
    intro x hx
    have hx2 : x ∈ ('*' :: '*' :: ([] : List Char)) := by
      have ht : (chars "**" ++ t).take 2 = '*' :: '*' :: [] := rfl
      rw [ht] at hx
      exact hx
    simp only [List.mem_cons, List.not_mem_nil, or_false] at hx2
    rcases hx2 with rfl | rfl <;> decide
  · split
    · rename_i h
      obtain ⟨t, rfl⟩ := isPrefixB_iff.mp h
      intro x hx
      have hx2 : x ∈ ('*' :: ([] : List Char)) := by
        have ht : (chars "*" ++ t).take 1 = '*' :: [] := rfl
        rw [ht] at hx
        exact hx
      simp only [List.mem_cons, List.not_mem_nil, or_false] at hx2
      rcases hx2 with rfl
      decide
    · intro x hx
      simp at hx

theorem takeFileLabel_no_nl (s : List Char) : ∀ x ∈ (takeFileLabel s).1, x ≠ '\n' := by
  simp only [takeFileLabel]
  split
  · rename_i h
    obtain ⟨t, rfl⟩ := isPrefixB_iff.mp h
    intro x hx
    have hx2 : x ∈ ('F' :: 'i' :: 'l' :: 'e' :: ':' :: ([] : List Char)) := by
      have ht : (chars "File:" ++ t).take 5 = 'F' :: 'i' :: 'l' :: 'e' :: ':' :: [] := rfl
      rw [ht] at hx
      exact hx
    simp only [List.mem_cons, List.not_mem_nil, or_false] at hx2
    rcases hx2 with rfl | rfl | rfl | rfl | rfl <;> decide
  · split
    · rename_i h
      obtain ⟨t, rfl⟩ := isPrefixB_iff.mp h
      intro x hx
      have hx2 : x ∈ ('*' :: '*' :: 'F' :: 'i' :: 'l' :: 'e' :: ':' :: '*' :: '*' ::
          ([] : List Char)) := by
        have ht : (chars "**File:**" ++ t).take 9 =
            '*' :: '*' :: 'F' :: 'i' :: 'l' :: 'e' :: ':' :: '*' :: '*' :: [] := rfl
        rw [ht] at hx
        exact hx
      simp only [List.mem_cons, List.not_mem_nil, or_false] at hx2
      rcases hx2 with rfl | rfl | rfl | rfl | rfl | rfl | rfl | rfl | rfl <;> decide
    · intro x hx
      simp at hx

/-- The numbered-item lookahead holds at a newline followed by a digit, a
dot, and anything. -/
theorem lookNum_item {c : Char} (hcd : c.isDigit = true) (hcw : pyWs c = false)
    (t : List Char) : lookNum ('\n' :: c :: '.' :: t) = true := by
  simp [lookNum, List.dropWhile_cons, List.takeWhile_cons, hcw, hcd,
    (by decide : Char.isDigit '.' = false)]

/-- One numbered item of the shape digit, dot, space, then a newline-free
body holding at least one non-whitespace character, followed by either end of
input or a position where the numbered-item lookahead holds: the match
attempt captures exactly the item and stops at the boundary. -/
theorem numMatch_item {c : Char} {b r : List Char}
    (hcd : c.isDigit = true) (hcw : pyWs c = false)
    (hnl : ∀ x ∈ b, x ≠ '\n')
    (hnw : ∃ x ∈ b, pyWs x = false)
    (hr : r = [] ∨ (lookNum r = true ∧ ∃ r2, r = '\n' :: r2)) :
    numMatchHere (c :: '.' :: ' ' :: (b ++ r)) = some (c :: '.' :: ' ' :: b, r) := by
  have hrshape : r = [] ∨ ∃ r2, r = '\n' :: r2 := by
    rcases hr with h | ⟨_, h⟩
    · exact Or.inl h
    · exact Or.inr h
  have hrlook : r = [] ∨ lookNum r = true := by
    rcases hr with h | ⟨h, _⟩
    · exact Or.inl h
    · exact Or.inr h
  have hbd_ne : b.dropWhile pyWs ≠ [] := by
    intro hcon
    rw [List.dropWhile_eq_nil_iff] at hcon
    obtain ⟨x, hx, hxw⟩ := hnw
    have h2 := hcon x hx
    rw [hxw] at h2
    exact Bool.false_ne_true h2
  obtain ⟨y, v, hyv⟩ := List.exists_cons_of_ne_nil hbd_ne
  have hyw : pyWs y = false := dropWhile_cons_head_false hyv
  have hbw : ∀ x ∈ b.takeWhile pyWs, pyWs x = true := fun x hx => List.mem_takeWhile_imp hx
  have hzznl : ∀ x ∈ y :: v, x ≠ '\n' := by
    intro x hx
    refine hnl x ?_
    have hsub := List.dropWhile_sublist (p := pyWs) (l := b)
    rw [hyv] at hsub
    exact hsub.subset hx
  set s : List Char := c :: '.' :: ' ' :: (b ++ r) with hs
  have e1 : s.dropWhile pyWs = s := by
    rw [hs, List.dropWhile_cons, if_neg (by simp [hcw])]
  have e2 : s.takeWhile Char.isDigit = [c] := by
    rw [hs, List.takeWhile_cons, if_pos (by simp [hcd]), List.takeWhile_cons,
      if_neg (by decide)]
  have e3 : s.dropWhile Char.isDigit = '.' :: ' ' :: (b ++ r) := by
    rw [hs, List.dropWhile_cons, if_pos (by simp [hcd]), List.dropWhile_cons,
      if_neg (by decide)]
  have e6 : (' ' :: (b ++ r)).dropWhile pyWs = (y :: v) ++ r := by
    rw [List.dropWhile_cons, if_pos (by decide)]
    conv_lhs => rw [← List.takeWhile_append_dropWhile (p := pyWs) (l := b)]
    rw [List.append_assoc, dropWhile_append_all hbw, hyv, List.cons_append,
      List.dropWhile_cons, if_neg (by simp [hyw])]
  obtain ⟨w4, hw4, hw4nl⟩ :=
    split_before_nl (takeStars_append ((y :: v) ++ r)) (takeStars_no_nl _) hzznl hrshape
  obtain ⟨w5, hw5, hw5nl⟩ :=
    split_before_nl (takeFileLabel_append (w4 ++ r)) (takeFileLabel_no_nl _) hw4nl hrshape
  have htk : takeUntilNum (w5 ++ r) = (w5, r) := takeUntilNum_no_nl hw5nl hrlook
  cases hm : numMatchHere s with
  | none =>
    exfalso
    simp only [numMatchHere, e1, e2, List.isEmpty_cons, Bool.false_eq_true, if_false] at hm
    exact Option.noConfusion hm
  | some gr =>
    obtain ⟨g, rest⟩ := gr
    have hg : g ++ rest = s.dropWhile pyWs := numMatchHere_append hm
    have hrest : rest = r := by
      simp only [numMatchHere, e1, e2, e3, List.isEmpty_cons, Bool.false_eq_true, if_false,
        List.head?_cons, beq_self_eq_true, if_true, List.drop_one, List.tail_cons,
        e6, hw4, hw5, htk, Option.some.injEq, Prod.mk.injEq] at hm
      exact hm.2.symm
    rw [e1] at hg
    have hs2 : s = (c :: '.' :: ' ' :: b) ++ r := by simp [hs]
    rw [hs2, hrest] at hg
    have hgg : g = c :: '.' :: ' ' :: b := by
      have := List.append_cancel_right hg
      exact this
    rw [hgg, hrest]

/-! ### A response consisting of numbered items

Statement-side formalization of the spec's notion of a response that consists
of newline-separated numbered items: each item is a digit label, a dot and a
space, then a single-line body holding at least one non-whitespace
character. -/

/-- One numbered item line. -/
def numItem (c : Char) (b : List Char) : List Char := c :: '.' :: ' ' :: b

/-- The response made of the given items, separated by single newlines. -/
def itemsResp : List (Char × List Char) → List Char
  | [] => []
  | (c, b) :: rest =>
    numItem c b ++ (if rest = [] then [] else '\n' :: itemsResp rest)

/-- Well-formedness of one item: a digit label (hence not whitespace and not
a File or Line label letter) and a newline-free body with some non-whitespace
character. -/
def goodItem (p : Char × List Char) : Prop :=
  p.1.isDigit = true ∧ pyWs p.1 = false ∧ (pyLowerChar p.1 == 'f') = false ∧
    (pyLowerChar p.1 == 'l') = false ∧ (∀ x ∈ p.2, x ≠ '\n') ∧
    (∃ x ∈ p.2, pyWs x = false)

theorem lookNum_itemsResp {c2 : Char} {b2 : List Char} {rest2 : List (Char × List Char)}
    (hcd : c2.isDigit = true) (hcw : pyWs c2 = false) :
    lookNum ('\n' :: itemsResp ((c2, b2) :: rest2)) = true := by
  simp only [itemsResp, numItem, List.cons_append]
  exact lookNum_item hcd hcw _

theorem numMatchHere_itemsResp {c : Char} {b : List Char} {rest : List (Char × List Char)}
    (hg : goodItem (c, b)) (hrest : ∀ p ∈ rest, goodItem p) :
    numMatchHere (itemsResp ((c, b) :: rest)) =
      some (numItem c b, if rest = [] then [] else '\n' :: itemsResp rest) := by
  obtain ⟨hcd, hcw, _, _, hnl, hnw⟩ := hg
  by_cases hre : rest = []
  · subst hre
    simp only [itemsResp, numItem, List.cons_append, if_pos rfl]
    exact numMatch_item hcd hcw hnl hnw (Or.inl rfl)
  · simp only [itemsResp, numItem, List.cons_append, if_neg hre]
    refine numMatch_item hcd hcw hnl hnw (Or.inr ⟨?_, _, rfl⟩)
    cases rest with
    | nil => exact absurd rfl hre
    | cons p rest2 =>
      obtain ⟨c2, b2⟩ := p
      have hg2 := hrest (c2, b2) (by simp)
      exact lookNum_itemsResp hg2.1 hg2.2.1

theorem numScanAux_nil : numScanAux [] = [] := rfl

theorem numScanAux_itemsResp (items : List (Char × List Char))
    (h : ∀ p ∈ items, goodItem p) :
    numScanAux ('\n' :: itemsResp items) = items.map (fun p => numItem p.1 p.2) := by
  induction items with
  | nil =>
    rw [itemsResp, numScanAux_cons_nl]
    norm_num [numMatchHere]
    rfl
  | cons p rest ih =>
    obtain ⟨c, b⟩ := p
    rw [numScanAux_cons_nl,
      numMatchHere_itemsResp (h (c, b) (by simp)) (fun q hq => h q (by simp [hq]))]
    by_cases hre : rest = []
    · subst hre
      simp [numScanAux_nil]
    · rw [if_neg hre]
      simp only [List.map_cons]
      rw [ih (fun q hq => h q (by simp [hq]))]

theorem numberedBugs_itemsResp {c : Char} {b : List Char} {rest : List (Char × List Char)}
    (hg : goodItem (c, b)) (hrest : ∀ p ∈ rest, goodItem p) :
    numberedBugs (itemsResp ((c, b) :: rest)) =
      numItem c b :: rest.map (fun p => numItem p.1 p.2) := by
  rw [numberedBugs.eq_def, numMatchHere_itemsResp hg hrest]
  by_cases hre : rest = []
  · subst hre
    simp [numScanAux_nil]
  · rw [if_neg hre]
    simp only []
    rw [numScanAux_itemsResp rest hrest]

theorem flMatchHere_not_fl {d : Char} (h1 : (pyLowerChar d == 'f') = false)
    (h2 : (pyLowerChar d == 'l') = false) (t : List Char) :
    flMatchHere (d :: t) = none := by
  have hf : isPrefixCI (chars "file") (d :: t) = false := by
    have e : isPrefixCI (chars "file") (d :: t)
        = ((pyLowerChar d == 'f') && isPrefixCI (chars "ile") t) := rfl
    rw [e, h1, Bool.false_and]
  have hl : isPrefixCI (chars "line") (d :: t) = false := by
    have e : isPrefixCI (chars "line") (d :: t)
        = ((pyLowerChar d == 'l') && isPrefixCI (chars "ine") t) := rfl
    rw [e, h2, Bool.false_and]
  simp [flMatchHere, hf, hl]

theorem flScanAux_nil : flScanAux [] = [] := rfl

theorem flScanAux_append_no_nl {A : List Char} (h : ∀ x ∈ A, x ≠ '\n') (s : List Char) :
    flScanAux (A ++ s) = flScanAux s := by
  induction A with
  | nil => simp
  | cons a A2 ih =>
    have ha : a ≠ '\n' := h a (by simp)
    rw [List.cons_append, flScanAux_cons_ne ha, ih (fun x hx => h x (by simp [hx]))]

theorem numItem_no_nl {c : Char} {b : List Char} (hcw : pyWs c = false)
    (hnl : ∀ x ∈ b, x ≠ '\n') : ∀ x ∈ numItem c b, x ≠ '\n' := by
  intro x hx
  simp only [numItem, List.mem_cons] at hx
  rcases hx with rfl | rfl | rfl | hx
  · intro hcon
    rw [hcon] at hcw
    simp [pyWs] at hcw
  · decide
  · decide
  · exact hnl x hx

theorem flMatchHere_itemsResp {c : Char} {b : List Char} {rest : List (Char × List Char)}
    (hg : goodItem (c, b)) :
    flMatchHere (itemsResp ((c, b) :: rest)) = none := by
  obtain ⟨_, _, hf, hl, _, _⟩ := hg
  simp only [itemsResp, numItem, List.cons_append]
  exact flMatchHere_not_fl hf hl _

theorem flScanAux_itemsResp (items : List (Char × List Char))
    (h : ∀ p ∈ items, goodItem p) :
    flScanAux (itemsResp items) = [] := by
  induction items with
  | nil => rfl
  | cons p rest ih =>
    obtain ⟨c, b⟩ := p
    obtain ⟨hcd, hcw, hfc, hlc, hnl, hnw⟩ := h (c, b) (by simp)
    have hAnl : ∀ x ∈ numItem c b, x ≠ '\n' := numItem_no_nl hcw hnl
    by_cases hre : rest = []
    · subst hre
      simp only [itemsResp, if_pos rfl]
      rw [flScanAux_append_no_nl hAnl]
      rfl
    · simp only [itemsResp, if_neg hre]
      rw [flScanAux_append_no_nl hAnl, flScanAux_cons_nl]
      cases rest with
      | nil => exact absurd rfl hre
      | cons p2 rest2 =>
        obtain ⟨c2, b2⟩ := p2
        rw [flMatchHere_itemsResp (h (c2, b2) (by simp))]
        exact ih (fun q hq => h q (by simp [hq]))

theorem fileLineSections_itemsResp {c : Char} {b : List Char}
    {rest : List (Char × List Char)} (hg : goodItem (c, b))
    (hrest : ∀ p ∈ rest, goodItem p) :
    fileLineSections (itemsResp ((c, b) :: rest)) = [] := by
  rw [fileLineSections.eq_def, flMatchHere_itemsResp hg]
  exact flScanAux_itemsResp _ (by
    intro q hq
    simp only [List.mem_cons] at hq
    rcases hq with rfl | hq
    · exact hg
    · exact hrest q hq)

theorem dropThroughLastNl_not_ws {c : Char} (h : pyWs c = false) (t : List Char) :
    dropThroughLastNl (c :: t) = none := by
  simp [dropThroughLastNl, h]

theorem blankSplitAux_append_no_nl {A : List Char} (h : ∀ x ∈ A, x ≠ '\n')
    (acc s : List Char) :
    blankSplitAux acc (A ++ s) = blankSplitAux (A.reverse ++ acc) s := by
  induction A generalizing acc with
  | nil => simp
  | cons a A2 ih =>
    have ha : a ≠ '\n' := h a (by simp)
    rw [List.cons_append, blankSplitAux_cons_ne ha,
      ih (fun x hx => h x (by simp [hx]))]
    congr 1
    simp

theorem blankSplitAux_itemsResp (items : List (Char × List Char))
    (h : ∀ p ∈ items, goodItem p) (acc : List Char) :
    blankSplitAux acc (itemsResp items) = [acc.reverse ++ itemsResp items] := by
  induction items generalizing acc with
  | nil => simp [itemsResp, blankSplitAux, blankSplitF]
  | cons p rest ih =>
    obtain ⟨c, b⟩ := p
    obtain ⟨hcd, hcw, hfc, hlc, hnl, hnw⟩ := h (c, b) (by simp)
    have hAnl : ∀ x ∈ numItem c b, x ≠ '\n' := numItem_no_nl hcw hnl
    by_cases hre : rest = []
    · subst hre
      simp only [itemsResp, eq_self_iff_true, if_true]
      rw [blankSplitAux_append_no_nl hAnl]
      have h0 : blankSplitAux ((numItem c b).reverse ++ acc) [] =
          [((numItem c b).reverse ++ acc).reverse] := rfl
      rw [h0]
      simp
    · simp only [itemsResp, if_neg hre]
      rw [blankSplitAux_append_no_nl hAnl, blankSplitAux_cons_nl]
      cases rest with
      | nil => exact absurd rfl hre
      | cons p2 rest2 =>
        obtain ⟨c2, b2⟩ := p2
        have hg2 := h (c2, b2) (by simp)
        have hdrop : dropThroughLastNl (itemsResp ((c2, b2) :: rest2)) = none := by
          simp only [itemsResp, numItem, List.cons_append]
          exact dropThroughLastNl_not_ws hg2.2.1 _
        rw [hdrop]
        rw [ih (fun q hq => h q (by simp [hq]))]
        simp

/-- C6: for every response consisting of exactly five newline-separated
numbered items, each with a single-line body holding some non-whitespace
character, the segmenter's numbered-list extraction returns exactly the five
items, no File or Line section is found, and the candidate paragraph set is
exactly those five items — so neither the bold fallback nor the blank-line
split (which would have produced the whole response as a single paragraph)
contributes anything. -/
theorem C6_five_numbered_items (b1 b2 b3 b4 b5 : List Char)
    (hnl1 : ∀ x ∈ b1, x ≠ '\n') (hnw1 : ∃ x ∈ b1, pyWs x = false)
    (hnl2 : ∀ x ∈ b2, x ≠ '\n') (hnw2 : ∃ x ∈ b2, pyWs x = false)
    (hnl3 : ∀ x ∈ b3, x ≠ '\n') (hnw3 : ∃ x ∈ b3, pyWs x = false)
    (hnl4 : ∀ x ∈ b4, x ≠ '\n') (hnw4 : ∃ x ∈ b4, pyWs x = false)
    (hnl5 : ∀ x ∈ b5, x ≠ '\n') (hnw5 : ∃ x ∈ b5, pyWs x = false) :
    numberedBugs (itemsResp [('1', b1), ('2', b2), ('3', b3), ('4', b4), ('5', b5)]) =
      [numItem '1' b1, numItem '2' b2, numItem '3' b3, numItem '4' b4, numItem '5' b5] ∧
    fileLineSections (itemsResp [('1', b1), ('2', b2), ('3', b3), ('4', b4), ('5', b5)]) =
      [] ∧
    candidateParagraphs (itemsResp [('1', b1), ('2', b2), ('3', b3), ('4', b4), ('5', b5)]) =
      [numItem '1' b1, numItem '2' b2, numItem '3' b3, numItem '4' b4, numItem '5' b5] ∧
    blankSplit (itemsResp [('1', b1), ('2', b2), ('3', b3), ('4', b4), ('5', b5)]) =
      [itemsResp [('1', b1), ('2', b2), ('3', b3), ('4', b4), ('5', b5)]] := by
  have g1 : goodItem ('1', b1) :=
    ⟨show Char.isDigit '1' = true by decide, show pyWs '1' = false by decide,
     show (pyLowerChar '1' == 'f') = false by decide,
     show (pyLowerChar '1' == 'l') = false by decide, hnl1, hnw1⟩
  have g2 : goodItem ('2', b2) :=
    ⟨show Char.isDigit '2' = true by decide, show pyWs '2' = false by decide,
     show (pyLowerChar '2' == 'f') = false by decide,
     show (pyLowerChar '2' == 'l') = false by decide, hnl2, hnw2⟩
  have g3 : goodItem ('3', b3) :=
    ⟨show Char.isDigit '3' = true by decide, show pyWs '3' = false by decide,
     show (pyLowerChar '3' == 'f') = false by decide,
     show (pyLowerChar '3' == 'l') = false by decide, hnl3, hnw3⟩
  have g4 : goodItem ('4', b4) :=
    ⟨show Char.isDigit '4' = true by decide, show pyWs '4' = false by decide,
     show (pyLowerChar '4' == 'f') = false by decide,
     show (pyLowerChar '4' == 'l') = false by decide, hnl4, hnw4⟩
  have g5 : goodItem ('5', b5) :=
    ⟨show Char.isDigit '5' = true by decide, show pyWs '5' = false by decide,
     show (pyLowerChar '5' == 'f') = false by decide,
     show (pyLowerChar '5' == 'l') = false by decide, hnl5, hnw5⟩
  have grest : ∀ p ∈ [('2', b2), ('3', b3), ('4', b4), ('5', b5)], goodItem p := by
    intro p hp
    simp only [List.mem_cons, List.not_mem_nil, or_false] at hp
    rcases hp with rfl | rfl | rfl | rfl
    · exact g2
    · exact g3
    · exact g4
    · exact g5
  have hall : ∀ p ∈ [('1', b1), ('2', b2), ('3', b3), ('4', b4), ('5', b5)], goodItem p := by
    intro p hp
    simp only [List.mem_cons, List.not_mem_nil, or_false] at hp
    rcases hp with rfl | hp2
    · exact g1
    · exact grest p (by simpa using hp2)
  have hnum := numberedBugs_itemsResp g1 grest
  have hfl := fileLineSections_itemsResp g1 grest
  have hbs := blankSplitAux_itemsResp [('1', b1), ('2', b2), ('3', b3), ('4', b4), ('5', b5)]
    hall []
  have hnum2 : numberedBugs (itemsResp [('1', b1), ('2', b2), ('3', b3), ('4', b4), ('5', b5)]) =
      [numItem '1' b1, numItem '2' b2, numItem '3' b3, numItem '4' b4, numItem '5' b5] := by
    rw [hnum]
    simp
  refine ⟨hnum2, hfl, ?_, ?_⟩
  · simp only [candidateParagraphs, hnum2, hfl, List.isEmpty_nil, if_true]
    norm_num
  · have hdef : blankSplit (itemsResp [('1', b1), ('2', b2), ('3', b3), ('4', b4), ('5', b5)]) =
        blankSplitAux [] (itemsResp [('1', b1), ('2', b2), ('3', b3), ('4', b4), ('5', b5)]) :=
      rfl
    rw [hdef, hbs]
    simp

/-- C6 witness: the segmentation theorem applied to five concrete bodies. -/
theorem C6_five_numbered_items_witness :
    candidateParagraphs (itemsResp [('1', chars "aa"), ('2', chars "bb"), ('3', chars "cc"),
      ('4', chars "dd"), ('5', chars "ee")]) =
      [numItem '1' (chars "aa"), numItem '2' (chars "bb"), numItem '3' (chars "cc"),
       numItem '4' (chars "dd"), numItem '5' (chars "ee")] :=
  (C6_five_numbered_items (chars "aa") (chars "bb") (chars "cc") (chars "dd") (chars "ee")
    (by decide) (by decide) (by decide) (by decide) (by decide)
    (by decide) (by decide) (by decide) (by decide) (by decide)).2.2.1

/-! ### Ranking lemmas -/

theorem insertByRecall_perm (x : List Char × EvalEntry)
    (l : List (List Char × EvalEntry)) : (insertByRecall x l).Perm (x :: l) := by
  induction l with
  | nil => exact List.Perm.refl _
  | cons y ys ih =>
    simp only [insertByRecall]
    split
    · exact List.Perm.refl _
    · exact (ih.cons y).trans (List.Perm.swap x y ys)

theorem get_sorted_evaluation_perm (ev : List (List Char × EvalEntry)) :
    (get_sorted_evaluation ev).Perm ev := by
  induction ev with
  | nil => exact List.Perm.refl _
  | cons a l ih => exact (insertByRecall_perm a _).trans (ih.cons a)

theorem insertByRecall_sorted (x : List Char × EvalEntry)
    {l : List (List Char × EvalEntry)}
    (h : List.Pairwise (fun a b => b.2.«recall» ≤ a.2.«recall») l) :
    List.Pairwise (fun a b => b.2.«recall» ≤ a.2.«recall») (insertByRecall x l) := by
  induction l with
  | nil => simp [insertByRecall]
  | cons y ys ih =>
    simp only [insertByRecall]
    split
    · rename_i hyx
      refine List.Pairwise.cons ?_ h
      intro z hz
      simp only [List.mem_cons] at hz
      rcases hz with rfl | hz
      · exact hyx
      · exact le_trans (List.rel_of_pairwise_cons h hz) hyx
    · rename_i hyx
      refine List.Pairwise.cons ?_ (ih h.tail)
      intro z hz
      have hz2 : z ∈ x :: ys := (insertByRecall_perm x ys).mem_iff.mp hz
      simp only [List.mem_cons] at hz2
      rcases hz2 with rfl | hz2
      · exact le_of_not_le hyx
      · exact List.rel_of_pairwise_cons h hz2

theorem get_sorted_evaluation_sorted (ev : List (List Char × EvalEntry)) :
    List.Pairwise (fun a b => b.2.«recall» ≤ a.2.«recall») (get_sorted_evaluation ev) := by
  induction ev with
  | nil => simp [get_sorted_evaluation]
  | cons a l ih => exact insertByRecall_sorted a ih

theorem insertByRecall_filter (x : List Char × EvalEntry)
    (l : List (List Char × EvalEntry)) (q : ℚ) :
    (insertByRecall x l).filter (fun e => decide (e.2.«recall» = q)) =
      if x.2.«recall» = q then x :: l.filter (fun e => decide (e.2.«recall» = q))
      else l.filter (fun e => decide (e.2.«recall» = q)) := by
  induction l with
  | nil =>
    simp only [insertByRecall, List.filter]
    split
    · rename_i hx
      rw [if_pos (by simpa using hx)]
    · rename_i hx
      rw [if_neg (by simpa using hx)]
  | cons y ys ih =>
    simp only [insertByRecall]
    split
    · rename_i hyx
      rw [List.filter_cons]
      split
      · rename_i hx
        rw [if_pos (by simpa using hx)]
      · rename_i hx
        rw [if_neg (by simpa using hx)]
    · rename_i hyx
      rw [List.filter_cons, List.filter_cons, ih]
      by_cases hx : x.2.«recall» = q
      · have hy : ¬ (y.2.«recall» = q) := by
          intro hcon
          exact hyx (le_of_eq (by rw [hcon, hx]))
        rw [if_pos hx, if_pos hx]
        simp only [decide_eq_true_eq]
        rw [if_neg hy, if_neg hy]
      · rw [if_neg hx, if_neg hx]

theorem get_sorted_evaluation_filter (ev : List (List Char × EvalEntry)) (q : ℚ) :
    (get_sorted_evaluation ev).filter (fun e => decide (e.2.«recall» = q)) =
      ev.filter (fun e => decide (e.2.«recall» = q)) := by
  induction ev with
  | nil => rfl
  | cons a l ih =>
    simp only [get_sorted_evaluation]
    rw [insertByRecall_filter]
    by_cases hx : a.2.«recall» = q
    · rw [if_pos hx, ih, List.filter_cons, if_pos (by simpa using hx)]
    · rw [if_neg hx, ih, List.filter_cons, if_neg (by simpa using hx)]

/-- An evaluation entry carrying only a recall value. -/
def entryOfRecall (r : ℚ) : EvalEntry := ⟨0, 0, none, [], r, none, none⟩

/-- The three-agent evaluation of the ranking-stability example. -/
def c7eval : List (List Char × EvalEntry) :=
  [(chars "A", entryOfRecall (1/2)), (chars "B", entryOfRecall (4/5)),
   (chars "C", entryOfRecall (1/2))]

/-- C7: get_sorted_evaluation orders agents by recall descending; it permutes
the input, agents with equal recall keep their original input order (the
filter on each recall class is unchanged), and on the concrete example with
agents A at recall one half, B at recall four fifths and C at recall one half
the output order is B, A, C. -/
theorem C7_ranking_stable :
    (∀ ev : List (List Char × EvalEntry),
      List.Pairwise (fun a b => b.2.«recall» ≤ a.2.«recall») (get_sorted_evaluation ev)) ∧
    (∀ ev : List (List Char × EvalEntry), (get_sorted_evaluation ev).Perm ev) ∧
    (∀ (ev : List (List Char × EvalEntry)) (q : ℚ),
      (get_sorted_evaluation ev).filter (fun e => decide (e.2.«recall» = q)) =
        ev.filter (fun e => decide (e.2.«recall» = q))) ∧
    get_sorted_evaluation c7eval =
      [(chars "B", entryOfRecall (4/5)), (chars "A", entryOfRecall (1/2)),
       (chars "C", entryOfRecall (1/2))] := by
  refine ⟨get_sorted_evaluation_sorted, get_sorted_evaluation_perm,
    get_sorted_evaluation_filter, ?_⟩
  simp only [c7eval, get_sorted_evaluation, entryOfRecall]
  norm_num [insertByRecall]

/-! ### Failure isolation -/

/-- C8: a failed agent result is aggregated into a zero-recall entry with an
empty claim list and the agent's error message attached; run_agent converts a
timeout or an exception of the wrapper into a structured failure record
rather than propagating it; run_all_agents records one result per agent, and
the result of each agent depends only on the wrapper's outcome for that
agent, so one agent's failure does not abort the run or change another
agent's result. -/
theorem C8_failure_isolation :
    (∀ (bugs : List Bug) (a resp : List Char) (err : Option (List Char)),
      evalEntryFor bugs ⟨a, false, resp, err⟩ = ⟨bugs.length, 0, none, [], 0, none, err⟩) ∧
    (∀ script : List Char,
      run_agent (fun _ => Except.error AgentFailure.timeout) script =
        ⟨script, false, chars "Timeout - agent took too long to respond",
         some (chars "Process timed out")⟩) ∧
    (∀ e script : List Char,
      run_agent (fun _ => Except.error (AgentFailure.exc e)) script =
        ⟨script, false, chars "Error running agent", some e⟩) ∧
    (∀ (w : List Char → Except AgentFailure (List Char)) (agents : List (List Char)),
      (run_all_agents w agents).map Prod.fst = agents) ∧
    (∀ (w : List Char → Except AgentFailure (List Char)) (agents : List (List Char))
      (i : Fin agents.length),
      (run_all_agents w agents)[(i : Nat)]? =
        some (agents.get i, run_agent w (agents.get i))) ∧
    (∀ (results : List (List Char × AgentResultRec)) (bugs : List Bug),
      (calculate_evaluation_metrics results bugs).map Prod.fst = results.map Prod.fst) := by
  refine ⟨?_, ?_, ?_, ?_, ?_, ?_⟩
  · intro bugs a resp err
    simp [evalEntryFor]
  · intro script
    rfl
  · intro e script
    rfl
  · intro w agents
    simp only [run_all_agents, List.map_map]
    have hid : (Prod.fst ∘ fun a => (a, run_agent w a)) = id := rfl
    rw [hid, List.map_id]
  · intro w agents i
    simp [run_all_agents, List.getElem?_map, List.getElem?_eq_getElem i.isLt]
  · intro results bugs
    simp [calculate_evaluation_metrics]

/-! ### Paragraphs with no indicators -/

/-- C9: a paragraph that contains none of the fixed indicator words and whose
lines never contain the sentinel text produces no claim at all: it is dropped
before matching and contributes nothing to the found_bugs list, neither as a
matched nor as an unmatched claim. -/
theorem C9_no_indicator_no_claim (para : List Char) (bugs : List Bug)
    (h1 : (bugIndicators.any (fun ind => containsSub ind (pyLower (pyStrip para)))) = false)
    (h2 : ((splitNl (pyLower (pyStrip para))).any
      (fun ln => containsSub sentinelLower (pyLower ln))) = false) :
    claimForParagraph para bugs = [] := by
  simp only [claimForParagraph]
  split
  · rfl
  · rw [if_neg (by simp [h1, h2])]

/-- C9 witness: the weather paragraph produces no claim. -/
theorem C9_no_indicator_no_claim_witness :
    claimForParagraph (chars "The weather today is nice.")
      [⟨chars "a.py", 1, chars "some description"⟩] = [] :=
  C9_no_indicator_no_claim (chars "The weather today is nice.")
    [⟨chars "a.py", 1, chars "some description"⟩] (by decide) (by decide)

/-! ### Scan accumulation -/

/-- C10: scan_for_bugs appends onto the harness's accumulated bug list
without clearing it, so it is not idempotent: from an empty list, scanning
the same root twice yields every bug record twice, in the same traversal
order each time. -/
theorem C10_scan_accumulates :
    (∀ (fs : List WalkDir) (root : List Char) (acc : List Bug),
      scan_for_bugs fs root acc = acc ++ scan_for_bugs fs root []) ∧
    (∀ (fs : List WalkDir) (root : List Char),
      scan_for_bugs fs root (scan_for_bugs fs root []) =
        scan_for_bugs fs root [] ++ scan_for_bugs fs root []) := by
  constructor
  · intro fs root acc
    simp [scan_for_bugs]
  · intro fs root
    simp [scan_for_bugs]

end AgentEval
